import Mathlib

/-!
# minibash: dispatcher, tokenizer, job stack and execution strategies

A shallow embedding of `src/minibash.c`.  A C string is the list of its bytes
before the terminating NUL.  The interpreter is modelled from the side of the
parent process: every function returns the list of events the parent causes
(messages, pipes, opened files, children created), and the answers of the
operating system (does `fork` succeed, which wait status comes back) are read
from an explicit environment.
-/

namespace Minibash

/-! ## C string primitives -/

/-- Model of `strchr(s, c) != NULL` for a non-NUL byte `c`: scan left to right. -/
def strchr : List Char → Char → Bool
  | [], _ => false
  | x :: xs, c => if x = c then true else strchr xs c

/-- Does `needle` match at the very start of `s` (the inner loop of `strstr`). -/
def matchesAt : List Char → List Char → Bool
  | [], _ => true
  | _ :: _, [] => false
  | n :: ns, x :: xs => if x = n then matchesAt ns xs else false

/-- Model of `strstr(s, needle) != NULL`: try every start position in turn. -/
def strstr : List Char → List Char → Bool
  | [], needle => matchesAt needle []
  | x :: xs, needle => if matchesAt needle (x :: xs) then true else strstr xs needle

/-- Model of `strcmp(a, b) == 0`. -/
def streq (a b : List Char) : Bool := a == b

/-! ## The dispatcher of `main` (lines 598-664) -/

/-- The function `main` hands one input line to, with the arguments it passes. -/
inductive Call
  | reprompt
  | print_help
  | handle_exit
  | execute_conditional (cmd : List Char)
  | execute_pipe (cmd : List Char)
  | execute_redirection (cmd : List Char) (type : Nat)
  | execute_background (cmd : List Char)
  | execute_foreground
  | execute_sequential (cmd : List Char)
  | count_words (filename : List Char)
  | concatenate_files (cmd : List Char)
  | execute_command (cmd : List Char)
  deriving DecidableEq, Repr

/-- One iteration of the loop of `main`, after the newline has been removed:
which function is called for the line `cmd`.  (The `#` that follows the closing
brace on line 652 of the source is taken as a slip of the keyboard.) -/
def main_dispatch (cmd : List Char) : Call :=
  if cmd.head? = none then Call.reprompt
  else if streq cmd ['h', 'e', 'l', 'p'] then Call.print_help
  else if streq cmd ['d', 't', 'e', 'r'] then Call.handle_exit
  else if strstr cmd ['&', '&'] || strstr cmd ['|', '|'] then Call.execute_conditional cmd
  else if strchr cmd '|' then Call.execute_pipe cmd
  else if strchr cmd '>' then
    if strstr cmd ['>', '>'] then Call.execute_redirection cmd 2
    else Call.execute_redirection cmd 1
  else if strchr cmd '<' then Call.execute_redirection cmd 0
  else if strchr cmd '+' then Call.execute_background cmd
  else if streq cmd ['f', 'o', 'r', 'e'] then Call.execute_foreground
  else if strchr cmd ';' then Call.execute_sequential cmd
  else if cmd.head? = some '#' then Call.count_words cmd.tail
  else if strchr cmd '~' then Call.concatenate_files cmd
  else Call.execute_command cmd

/-- The strategy table of the specification, in its order of precedence: each
entry is the test on the line and the call the entry stands for. -/
def strategyTable (cmd : List Char) : List (Prop × Call) :=
  [ (['&', '&'] <:+: cmd ∨ ['|', '|'] <:+: cmd, Call.execute_conditional cmd),
    ('|' ∈ cmd, Call.execute_pipe cmd),
    ('>' ∈ cmd ∧ ['>', '>'] <:+: cmd, Call.execute_redirection cmd 2),
    ('>' ∈ cmd ∧ ¬ ['>', '>'] <:+: cmd, Call.execute_redirection cmd 1),
    ('<' ∈ cmd, Call.execute_redirection cmd 0),
    ('+' ∈ cmd, Call.execute_background cmd),
    (cmd = ['f', 'o', 'r', 'e'], Call.execute_foreground),
    (';' ∈ cmd, Call.execute_sequential cmd),
    (cmd.head? = some '#', Call.count_words cmd.tail),
    ('~' ∈ cmd, Call.concatenate_files cmd),
    (True, Call.execute_command cmd) ]

/-- The call `c` belongs to the first entry of the table whose test holds. -/
def FirstMatch : List (Prop × Call) → Call → Prop
  | [], _ => False
  | (p, d) :: rest, c => (p ∧ c = d) ∨ (¬ p ∧ FirstMatch rest c)

/-! ## Constants -/

/-- The constant `MAX_ARGS`. -/
def MAX_ARGS : Nat := 4

/-- The constant `MAX_BG_PROCESSES`. -/
def MAX_BG_PROCESSES : Int := 100

/-! ## Tokenizer: `strtok` and `trim_whitespace` -/

/-- One non-NULL result of `strtok`, together with what the call did to the
buffer.  `skipped` are the delimiter bytes the call stepped over before the
token, `text` is the token, `cut` is the delimiter byte that ended the token and
was overwritten with NUL (no byte when the token ran to the end of the string)
and `rest` are the bytes after it, where the next `strtok(NULL, ..)` resumes. -/
structure Tok where
  skipped : List Char
  text : List Char
  cut : List Char
  rest : List Char
  deriving DecidableEq, Repr

/-- Membership test of a byte in the delimiter set. -/
def isDelim (delim : List Char) (c : Char) : Bool := delim.contains c

/-- Model of one call of `strtok` resuming at the bytes `s` with delimiter set
`delim`: step over leading delimiters; at the end of the string return NULL;
otherwise the token runs up to the next delimiter, which is cut off. -/
def strtok (delim : List Char) (s : List Char) : Option Tok :=
  match s.dropWhile (isDelim delim) with
  | [] => none
  | c :: cs =>
    some { skipped := s.takeWhile (isDelim delim),
           text := (c :: cs).takeWhile (fun x => !isDelim delim x),
           cut := ((c :: cs).dropWhile (fun x => !isDelim delim x)).take 1,
           rest := ((c :: cs).dropWhile (fun x => !isDelim delim x)).drop 1 }

/-- The loop `while (token != NULL && n < bound) { store token; token = strtok(NULL, delim); }`
with `fuel = bound - n`: the results of `strtok` that the loop stores. -/
def collect (delim : List Char) : Nat → Option Tok → List Tok
  | 0, _ => []
  | _ + 1, none => []
  | fuel + 1, some t => t :: collect delim fuel (strtok delim t.rest)

/-- The loop `while (token != NULL) { store token; token = strtok(NULL, delim); }`
run on the string `s`.  Every stored token uses up at least one byte, so the
bound `s.length` is never what stops the loop (see `collect_fuel`). -/
def tokenize (delim : List Char) (s : List Char) : List Tok :=
  collect delim s.length (strtok delim s)

/-- The test `isspace` of the C locale. -/
def isspace (c : Char) : Bool :=
  c = ' ' || c = '\t' || c = '\n' || c = '\x0b' || c = '\x0c' || c = '\r'

/-- Model of `trim_whitespace`: the string without its leading and trailing
white space. -/
def trim_whitespace (str : List Char) : List Char :=
  match str.dropWhile isspace with
  | [] => []
  | c :: cs => ((c :: cs).reverse.dropWhile isspace).reverse

/-! ## Events, children and the environment -/

/-- The result of `waitpid`: the child exited with a code (`WIFEXITED`, the
code being `WEXITSTATUS`), or it ended in another way. -/
inductive WStatus
  | exited (code : Nat)
  | abnormal
  deriving DecidableEq, Repr

/-- The value the parent derives from a wait status: `WEXITSTATUS` when
`WIFEXITED`, and -1 otherwise. -/
def exit_status : WStatus → Int
  | WStatus.exited code => (code % 256 : Nat)
  | WStatus.abnormal => -1

/-- The flags of the three `open` calls of `execute_redirection`. -/
inductive OpenMode
  | rdonly
  | wronly_creat_trunc
  | wronly_creat_append
  deriving DecidableEq, Repr

/-- What a freshly forked child goes on to do. -/
inductive Child
  /-- The child of `execute_command`: `execvp(args[0], args)`. -/
  | execvp (args : List (List Char))
  /-- The child of `execute_pipe` at stage `i`: standard input from the previous
  stage, standard output to the new pipe when `toPipe`, then `execute_command`. -/
  | stage (toPipe : Bool) (cmd : List Char)
  /-- The child of `execute_redirection`: the opened file replaces standard
  input (type 0) or standard output, then `execvp(args[0], args)`. -/
  | redirected (type : Nat) (filename : List Char) (args : List (List Char))
  /-- The child of `execute_conditional`: output and errors go to the pipe, then
  `exit(execute_command(cmd))`. -/
  | captured (cmd : List Char)
  deriving DecidableEq, Repr

/-- What the interpreter process does that is visible outside it: messages of
`error_message`, `perror` and `printf`, pipes and children created, waits and
files opened.  The number `i` is the loop iteration (or call number) the event
belongs to.  Closing and duplicating descriptors and the copying of a captured
output to the terminal are not recorded. -/
inductive Event
  | error (msg : String)
  | perror (site : String)
  | printf (format : String) (arg : Int)
  | pipe (i : Nat)
  | fork (i : Nat) (pid : Int) (child : Child)
  | waitpid (pid : Int)
  | wait_any
  | openFile (filename : List Char) (mode : OpenMode) (ok : Bool)
  deriving DecidableEq, Repr

/-- The answers of the operating system.  `pipe i` says whether the call of
`pipe` in iteration `i` succeeds, `fork i` is the process id the parent gets
from the call of `fork` in iteration `i` (`none` when no child can be created),
`wstatus i` is the wait status collected for that child, and `openOk` says
whether `open` succeeds on a file with a mode.  `out_of_bounds k args` is what
call number `k` of `execute_command` returns and causes once it has stored
outside its array `args`: the program does not fix that behaviour, so it is
left to the environment and no theorem says anything about it. -/
structure Env where
  pipe : Nat → Bool
  fork : Nat → Option Int
  wstatus : Nat → WStatus
  openOk : List Char → OpenMode → Bool
  out_of_bounds : Nat → List (List Char) → Int × List Event

/-! ## Background job stack (lines 16-70, 304-312) -/

/-- The globals `bg_process_stack` (an array of `MAX_BG_PROCESSES` slots) and
`bg_process_top`. -/
structure JobStack where
  bg_process_stack : List Int
  bg_process_top : Int
  deriving DecidableEq, Repr

/-- The state at program start: `bg_process_top = -1`, all slots zero. -/
def JobStack.initial : JobStack :=
  { bg_process_stack := List.replicate 100 0, bg_process_top := -1 }

/-- The handles the stack holds: slots `0 .. bg_process_top`, bottom first. -/
def JobStack.handles (s : JobStack) : List Int :=
  s.bg_process_stack.take (s.bg_process_top + 1).toNat

/-- The array has its 100 slots and the top index is in range. -/
def JobStack.WellFormed (s : JobStack) : Prop :=
  s.bg_process_stack.length = 100 ∧ -1 ≤ s.bg_process_top ∧ s.bg_process_top ≤ 99

/-- Model of `push_bg_process`. -/
def push_bg_process (pid : Int) (s : JobStack) : JobStack × List Event :=
  if s.bg_process_top < MAX_BG_PROCESSES - 1 then
    ({ bg_process_stack := s.bg_process_stack.set (s.bg_process_top + 1).toNat pid,
       bg_process_top := s.bg_process_top + 1 }, [])
  else
    (s, [Event.error "Background process stack overflow."])

/-- Model of `pop_bg_process`: the returned value, the new state, the messages. -/
def pop_bg_process (s : JobStack) : Int × JobStack × List Event :=
  if s.bg_process_top ≥ 0 then
    (s.bg_process_stack.getD s.bg_process_top.toNat 0,
     { bg_process_stack := s.bg_process_stack, bg_process_top := s.bg_process_top - 1 }, [])
  else
    (-1, s, [Event.error "No background process found."])

/-- Model of `execute_foreground`. -/
def execute_foreground (s : JobStack) : JobStack × List Event :=
  match pop_bg_process s with
  | (pid, s', evs) =>
    if pid > 0 then (s', evs ++ [Event.waitpid pid, Event.printf "Process %d brought to foreground." pid])
    else (s', evs)

/-- Calls of `push_bg_process` on the handles of a list, first to last. -/
def push_all : List Int → JobStack → JobStack × List Event
  | [], s => (s, [])
  | p :: ps, s =>
    let r := push_bg_process p s
    let r' := push_all ps r.1
    (r'.1, r.2 ++ r'.2)

/-- The call `pop_bg_process` made `k` times: the values returned in the order
of the calls, the final state and the messages. -/
def pop_n : Nat → JobStack → List Int × JobStack × List Event
  | 0, s => ([], s, [])
  | k + 1, s =>
    let r := pop_bg_process s
    let r' := pop_n k r.2.1
    (r.1 :: r'.1, r'.2.1, r.2.2 ++ r'.2.2)

/-- One operation on the job stack. -/
inductive StackOp
  | push (pid : Int)
  | pop
  deriving DecidableEq, Repr

/-- The state after a sequence of job-stack operations. -/
def run_ops : List StackOp → JobStack → JobStack
  | [], s => s
  | StackOp.push pid :: ops, s => run_ops ops (push_bg_process pid s).1
  | StackOp.pop :: ops, s => run_ops ops (pop_bg_process s).2.1

/-! ## Simple execution (lines 81-128) -/

/-- Model of `execute_command` as call number `k`: the returned value and the
events.  The argument vector is the list of space-separated tokens.  The C
array `args` has `MAX_ARGS` slots, `args[0]` to `args[MAX_ARGS - 1]`; the loop
stores token number `j` in `args[j]` without a bound and then stores NULL in
`args[argc]`, all before the test on `argc`.  With `MAX_ARGS` tokens or more
one of these stores falls outside the array, and from there on the behaviour
is the one the environment gives (`Env.out_of_bounds`). -/
def execute_command (env : Env) (k : Nat) (cmd : List Char) : Int × List Event :=
  let args := (tokenize [' '] cmd).map Tok.text
  let argc := args.length
  if argc ≥ MAX_ARGS then env.out_of_bounds k args
  else if argc < 1 ∨ argc > MAX_ARGS then
    (-1, [Event.error "Invalid number of arguments. Maximum is 4."])
  else
    match env.fork k with
    | some pid =>
      (exit_status (env.wstatus k), [Event.fork k pid (Child.execvp args), Event.waitpid pid])
    | none => (-1, [Event.perror "fork in execute_command"])

/-! ## Pipe execution (lines 131-190) -/

/-- The loop `for (i = 0; i < num_commands; i++)` of `execute_pipe`, entered at
iteration `i` with the commands from `commands[i]` on. -/
def pipe_loop (env : Env) (num_commands : Nat) : List (List Char) → Nat → List Event
  | [], _ => []
  | c :: cs, i =>
    if env.pipe i then
      match env.fork i with
      | some pid =>
        Event.pipe i :: Event.fork i pid (Child.stage (decide (i + 1 < num_commands)) c)
          :: Event.wait_any :: pipe_loop env num_commands cs (i + 1)
      | none => [Event.pipe i, Event.perror "fork in execute_pipe"]
    else [Event.perror "pipe in execute_pipe"]

/-- Model of `execute_pipe`. -/
def execute_pipe (env : Env) (cmd : List Char) : List Event :=
  let commands := (collect ['|'] 5 (strtok ['|'] cmd)).map Tok.text
  let num_commands := commands.length
  if num_commands > 4 then
    [Event.error "Error: Too many commands for piping. Maximum is 4."]
  else pipe_loop env num_commands commands 0

/-! ## Redirection (lines 193-260) -/

/-- The test `token[0] != '<' && token[0] != '>'` negated. -/
def startsRedirect (t : List Char) : Bool :=
  t.head? = some '<' || t.head? = some '>'

/-- The loop `while (token != NULL && token[0] != '<' && token[0] != '>')` of
`execute_redirection`: the arguments stored and the value of `token` when the
loop ends.  `fuel` bounds the iterations (see `tokenize`). -/
def redirect_args : Nat → Option Tok → List (List Char) × Option Tok
  | 0, token => ([], token)
  | _ + 1, none => ([], none)
  | fuel + 1, some t =>
    if startsRedirect t.text then ([], some t)
    else
      let r := redirect_args fuel (strtok [' '] t.rest)
      (t.text :: r.1, r.2)

/-- The flags `execute_redirection` opens the file with, by `type`. -/
def open_mode (type : Nat) : OpenMode :=
  if type = 0 then OpenMode.rdonly
  else if type = 1 then OpenMode.wronly_creat_trunc
  else OpenMode.wronly_creat_append

/-- Model of `execute_redirection`. -/
def execute_redirection (env : Env) (cmd : List Char) (type : Nat) : List Event :=
  let r := redirect_args cmd.length (strtok [' '] cmd)
  let args := r.1
  let argc := args.length
  match (if argc < 1 ∨ argc > MAX_ARGS then none else r.2.bind (fun t => strtok [' '] t.rest)) with
  | none => [Event.error "Invalid arguments or no file specified for redirection."]
  | some f =>
    let filename := f.text
    if env.openOk filename (open_mode type) then
      match env.fork 0 with
      | some pid =>
        [Event.openFile filename (open_mode type) true,
         Event.fork 0 pid (Child.redirected type filename args), Event.wait_any]
      | none =>
        [Event.openFile filename (open_mode type) true,
         Event.perror "fork in execute_redirection"]
    else
      [Event.openFile filename (open_mode type) false,
       Event.perror "open in execute_redirection"]

/-! ## Sequential execution (lines 315-338) -/

/-- The loop `for (i = 0; i < num_commands; i++) execute_command(commands[i])`. -/
def sequential_loop (env : Env) : List (List Char) → Nat → List Event
  | [], _ => []
  | c :: cs, i => (execute_command env i c).2 ++ sequential_loop env cs (i + 1)

/-- Model of `execute_sequential`. -/
def execute_sequential (env : Env) (cmd : List Char) : List Event :=
  let commands := (collect [';'] 4 (strtok [';'] cmd)).map Tok.text
  let num_commands := commands.length
  if num_commands > 4 then
    [Event.error "Error: Too many commands for sequential execution. Maximum is 4."]
  else sequential_loop env commands 0

/-! ## Conditional execution (lines 341-445) -/

/-- The byte `*(token - 1)` read after `strtok` returned the token `t` as a
second or later result: the last delimiter stepped over, or NUL when the token
starts right behind the delimiter that was overwritten. -/
def byte_before (t : Tok) : Char :=
  t.skipped.getLast?.getD (Char.ofNat 0)

/-- The parsing loop of `execute_conditional`: for each stored command, the
trimmed text and the entry written to `types` (none when nothing is written).
For a line of six or more sub-commands the C loop also stores an entry for the
fifth command, one slot behind the array `types[4]`; the model keeps that value
in the list, and the evaluation loop never reads it. -/
def conditional_parse : Nat → Option Tok → List (List Char × Option Nat)
  | 0, _ => []
  | _ + 1, none => []
  | fuel + 1, some t =>
    let token := strtok ['&', '|'] t.rest
    (trim_whitespace t.text,
      token.map (fun t' => if byte_before t' = '&' then 1 else 2))
      :: conditional_parse fuel token

/-- The evaluation loop of `execute_conditional`, entered at iteration `i` with
the commands from `commands[i]` on. -/
def conditional_loop (env : Env) (num_commands : Nat) (types : List (Option Nat)) :
    List (List Char) → Nat → Int → Bool → List Event
  | [], _, _, _ => []
  | c :: cs, i, last_status, skip_next =>
    if skip_next then conditional_loop env num_commands types cs (i + 1) last_status false
    else if env.pipe i then
      match env.fork i with
      | some pid =>
        let last_status := exit_status (env.wstatus i)
        let evs := [Event.pipe i, Event.fork i pid (Child.captured c), Event.waitpid pid]
        if i + 1 < num_commands then
          if types[i]? = some (some 1) ∧ last_status ≠ 0 then evs
          else if types[i]? = some (some 2) ∧ last_status = 0 then
            evs ++ conditional_loop env num_commands types cs (i + 1) last_status true
          else evs ++ conditional_loop env num_commands types cs (i + 1) last_status false
        else evs ++ conditional_loop env num_commands types cs (i + 1) last_status false
      | none => [Event.pipe i, Event.perror "fork in execute_conditional"]
    else [Event.perror "pipe in execute_conditional"]

/-- Model of `execute_conditional`. -/
def execute_conditional (env : Env) (cmd : List Char) : List Event :=
  let parsed := conditional_parse 5 (strtok ['&', '|'] cmd)
  let commands := parsed.map Prod.fst
  let types := parsed.map Prod.snd
  let num_commands := commands.length
  if num_commands > 5 then
    [Event.error "Error: Too many commands for conditional execution. Maximum is 5."]
  else conditional_loop env num_commands types commands 0 0 false

/-! ## Vocabulary of the claims -/

/-- Bytes still to be scanned after a result of `strtok`, plus one for a token. -/
def pending : Option Tok → Nat
  | none => 0
  | some t => t.rest.length + 1


/-- The children created in a trace, in order. -/
def spawned : List Event → List Child
  | [] => []
  | Event.fork _ _ child :: evs => child :: spawned evs
  | _ :: evs => spawned evs

/-- A child was created in iteration `i`: the sub-command at position `i` was
executed. -/
def executed (trace : List Event) (i : Nat) : Prop :=
  ∃ pid child, Event.fork i pid child ∈ trace

/-- The non-empty fields of a line between occurrences of the byte `c`. -/
def fields (c : Char) (line : List Char) : List (List Char) :=
  (line.splitOn c).filter (fun f => f ≠ [])

/-- The separator text that stands in the line between the sub-commands at
positions `i` and `i + 1` of a conditional line, when both exist. -/
def separator_after (cmd : List Char) (i : Nat) : Option (List Char) :=
  match (tokenize ['&', '|'] cmd)[i]?, (tokenize ['&', '|'] cmd)[i + 1]? with
  | some a, some b => some (a.cut ++ b.skipped)
  | _, _ => none

/-- The sub-commands `execute_conditional` keeps of a line (at most 5). -/
def conditional_commands (cmd : List Char) : List (List Char) :=
  (conditional_parse 5 (strtok ['&', '|'] cmd)).map Prod.fst

/-- An environment in which no child can be created. -/
def env_no_fork : Env :=
  { pipe := fun _ => true, fork := fun _ => none,
    wstatus := fun _ => WStatus.exited 0, openOk := fun _ _ => true,
    out_of_bounds := fun _ _ => (-1, []) }

/-- An environment in which every call succeeds, the child of iteration `i` gets
the process id `100 + i` and exits with the code `codes i`. -/
def env_ok (codes : Nat → Nat) : Env :=
  { pipe := fun _ => true, fork := fun i => some (100 + (i : Int)),
    wstatus := fun i => WStatus.exited (codes i), openOk := fun _ _ => true,
    out_of_bounds := fun _ _ => (-1, []) }

/-! ## File concatenation (lines 489-557) -/

/-- What `concatenate_files` does that is visible: a message, or one byte of a
file written to standard output with `putchar`. -/
inductive Output
  | event (e : Event)
  | putchar (c : Char)
  deriving DecidableEq, Repr

/-- The answers of the file system to `concatenate_files`, by loop iteration
`i` and file name: does `access(name, F_OK)` succeed, does the `fopen` of the
checking loop succeed, and what the `fopen` of the printing loop gives (`none`
when it fails, otherwise the bytes that the `fgetc` loop reads before it meets
`EOF`). -/
structure Files where
  access : Nat → List Char → Bool
  fopen_check : Nat → List Char → Bool
  fopen_read : Nat → List Char → Option (List Char)

/-- The checking loop of `concatenate_files`, entered at iteration `i` with the
entries from `files[i]` on: the message it returns with, or the trimmed names
it leaves in `files`. -/
def check_files (fs : Files) : List (List Char) → Nat → Except Event (List (List Char))
  | [], _ => Except.ok []
  | f :: rest, i =>
    let name := trim_whitespace f
    if strstr name ['.', 't', 'x', 't'] = false then
      Except.error (Event.error "Error: File is not a .txt file.")
    else if fs.access i name = false then
      Except.error (Event.error "Error: File does not exist or is not accessible.")
    else if fs.fopen_check i name = false then
      Except.error (Event.perror "fopen in concatenate_files")
    else
      match check_files fs rest (i + 1) with
      | Except.ok names => Except.ok (name :: names)
      | Except.error e => Except.error e

/-- The printing loop of `concatenate_files`, entered at iteration `i`. -/
def print_files (fs : Files) : List (List Char) → Nat → List Output
  | [], _ => []
  | name :: rest, i =>
    match fs.fopen_read i name with
    | some bytes => bytes.map Output.putchar ++ print_files fs rest (i + 1)
    | none => [Output.event (Event.perror "fopen in concatenate_files")]

/-- Model of `concatenate_files`. -/
def concatenate_files (fs : Files) (cmd : List Char) : List Output :=
  let files := (collect ['~'] 5 (strtok ['~'] cmd)).map Tok.text
  let num_files := files.length
  if num_files > 4 then
    [Output.event (Event.error "Error: Too many files for concatenation. Maximum is 4.")]
  else
    match check_files fs files 0 with
    | Except.error e => [Output.event e]
    | Except.ok names => print_files fs names 0

/-- The name ends in `.txt`: it has the `.txt` extension. -/
def has_txt_extension (name : List Char) : Prop :=
  ['.', 't', 'x', 't'] <:+ name

/-- A file system in which every file exists and can be opened, and reading a
file gives the first byte of its name. -/
def files_all_present : Files :=
  { access := fun _ _ => true, fopen_check := fun _ _ => true,
    fopen_read := fun _ name => some (name.take 1) }

/-! ### Facts about the string primitives -/

theorem strchr_iff (s : List Char) (c : Char) : strchr s c = true ↔ c ∈ s := by
  induction s with
  | nil => simp [strchr]
  | cons x xs ih =>
    by_cases h : x = c
    · simp [strchr, h]
    · simp [strchr, h, ih, Ne.symm h]

theorem matchesAt_iff (n s : List Char) : matchesAt n s = true ↔ n <+: s := by
  induction n generalizing s with
  | nil => simp [matchesAt]
  | cons a as ih =>
    cases s with
    | nil => simp [matchesAt]
    | cons x xs =>
      by_cases h : x = a
      · subst h; simp [matchesAt, ih, List.cons_prefix_cons]
      · simp [matchesAt, h, List.cons_prefix_cons, Ne.symm h]

theorem strstr_iff (s n : List Char) : strstr s n = true ↔ n <:+: s := by
  induction s with
  | nil =>
    simp [strstr, matchesAt_iff]
  | cons x xs ih =>
    rw [List.infix_cons_iff]
    by_cases h : matchesAt n (x :: xs) = true
    · simp [strstr, h, (matchesAt_iff _ _).1 h]
    · have h' : ¬ n <+: x :: xs := fun hp => h ((matchesAt_iff _ _).2 hp)
      simp [strstr, h, h', ih]

theorem main_dispatch_eq (cmd : List Char) (hne : cmd ≠ [])
    (hhelp : cmd ≠ ['h', 'e', 'l', 'p']) (hdter : cmd ≠ ['d', 't', 'e', 'r']) (c : Call) :
    FirstMatch (strategyTable cmd) c ↔ main_dispatch cmd = c := by
  have h0 : cmd.head? ≠ none := by
    cases cmd with
    | nil => exact absurd rfl hne
    | cons x xs => simp
  have e1 : (strstr cmd ['&', '&'] = true) ↔ ['&', '&'] <:+: cmd := strstr_iff _ _
  have e2 : (strstr cmd ['|', '|'] = true) ↔ ['|', '|'] <:+: cmd := strstr_iff _ _
  have e3 : (strstr cmd ['>', '>'] = true) ↔ ['>', '>'] <:+: cmd := strstr_iff _ _
  have c1 : (strchr cmd '|' = true) ↔ '|' ∈ cmd := strchr_iff _ _
  have c2 : (strchr cmd '>' = true) ↔ '>' ∈ cmd := strchr_iff _ _
  have c3 : (strchr cmd '<' = true) ↔ '<' ∈ cmd := strchr_iff _ _
  have c4 : (strchr cmd '+' = true) ↔ '+' ∈ cmd := strchr_iff _ _
  have c5 : (strchr cmd ';' = true) ↔ ';' ∈ cmd := strchr_iff _ _
  have c6 : (strchr cmd '~' = true) ↔ '~' ∈ cmd := strchr_iff _ _
  simp only [main_dispatch, strategyTable, FirstMatch, streq, beq_iff_eq, Bool.or_eq_true,
    if_neg h0, if_neg hhelp, if_neg hdter, e1, e2, e3, c1, c2, c3, c4, c5, c6]
  by_cases p1 : ['&', '&'] <:+: cmd ∨ ['|', '|'] <:+: cmd
  · simp [p1, eq_comm]
  by_cases p2 : '|' ∈ cmd
  · simp [p1, p2, eq_comm]
  by_cases p3 : '>' ∈ cmd
  · by_cases p3' : ['>', '>'] <:+: cmd
    · simp [p1, p2, p3, p3', eq_comm]
    · simp [p1, p2, p3, p3', eq_comm]
  by_cases p4 : '<' ∈ cmd
  · simp [p1, p2, p3, p4, eq_comm]
  by_cases p5 : '+' ∈ cmd
  · simp [p1, p2, p3, p4, p5, eq_comm]
  by_cases p6 : cmd = ['f', 'o', 'r', 'e']
  · simp [p1, p2, p3, p4, p5, eq_true p6, eq_comm]
  by_cases p7 : ';' ∈ cmd
  · simp [p1, p2, p3, p4, p5, p6, p7, eq_comm]
  by_cases p8 : cmd.head? = some '#'
  · simp [p1, p2, p3, p4, p5, p6, p7, p8, eq_comm]
  by_cases p9 : '~' ∈ cmd
  · simp [p1, p2, p3, p4, p5, p6, p7, p8, p9, eq_comm]
  · simp [p1, p2, p3, p4, p5, p6, p7, p8, p9, eq_comm]

/-! ### Facts about the tokenizer -/

/-- A call of `strtok` partitions the bytes it was resumed at. -/
theorem strtok_parts (delim s : List Char) (t : Tok) (h : strtok delim s = some t) :
    s = t.skipped ++ t.text ++ t.cut ++ t.rest := by
  unfold strtok at h
  split at h
  · cases h
  · next c cs hd =>
    cases h
    simp only [List.append_assoc, List.take_append_drop, List.takeWhile_append_dropWhile]
    rw [← hd, List.takeWhile_append_dropWhile]

theorem strtok_rest_length (delim s : List Char) (t : Tok) (h : strtok delim s = some t) :
    t.rest.length < s.length := by
  have hp := strtok_parts delim s t h
  have ht : 0 < t.text.length := by
    unfold strtok at h
    split at h
    · cases h
    · next c cs hd =>
      cases h
      have hc : isDelim delim c = false := by
        have := List.head_dropWhile_not (isDelim delim) s (by rw [hd]; simp)
        simpa [hd] using this
      simp [List.takeWhile_cons, hc]
  have := congrArg List.length hp
  simp only [List.length_append] at this
  omega

theorem strtok_nil (delim : List Char) : strtok delim [] = none := by
  simp [strtok]

theorem pending_strtok (delim s : List Char) : pending (strtok delim s) ≤ s.length := by
  cases h : strtok delim s with
  | none => simp [pending]
  | some t =>
    have := strtok_rest_length delim s t h
    simp only [pending]
    omega

/-- Once the bound covers the bytes left, a larger bound stores the same tokens. -/
theorem collect_fuel (delim : List Char) :
    ∀ (n m : Nat) (tok : Option Tok), pending tok ≤ n → pending tok ≤ m →
      collect delim n tok = collect delim m tok := by
  intro n
  induction n with
  | zero =>
    intro m tok hn _
    cases tok with
    | none => cases m <;> simp [collect]
    | some t => simp [pending] at hn
  | succ n ih =>
    intro m tok hn hm
    cases tok with
    | none => cases m <;> simp [collect]
    | some t =>
      cases m with
      | zero => simp [pending] at hm
      | succ m =>
        simp only [collect, List.cons.injEq, true_and]
        have h1 := pending_strtok delim t.rest
        simp only [pending] at hn hm
        exact ih m _ (by omega) (by omega)

/-- A smaller bound stores an initial segment of the tokens. -/
theorem collect_take (delim : List Char) :
    ∀ (n m : Nat) (tok : Option Tok), n ≤ m →
      collect delim n tok = (collect delim m tok).take n := by
  intro n
  induction n with
  | zero => intro m tok _; simp [collect]
  | succ n ih =>
    intro m tok hnm
    cases m with
    | zero => omega
    | succ m =>
      cases tok with
      | none => simp [collect]
      | some t =>
        simp only [collect, List.take_succ_cons, List.cons.injEq, true_and]
        exact ih m _ (by omega)

theorem collect_length_le (delim : List Char) :
    ∀ (n : Nat) (tok : Option Tok), (collect delim n tok).length ≤ n := by
  intro n
  induction n with
  | zero => intro tok; simp [collect]
  | succ n ih =>
    intro tok
    cases tok with
    | none => simp [collect]
    | some t => simp only [collect, List.length_cons]; have := ih (strtok delim t.rest); omega

/-- The bounded loop stores the first `n` tokens of the line. -/
theorem collect_eq_take_tokenize (delim s : List Char) (n : Nat) :
    collect delim n (strtok delim s) = (tokenize delim s).take n := by
  unfold tokenize
  by_cases h : n ≤ s.length
  · exact collect_take delim n s.length _ h
  · rw [collect_fuel delim n s.length _ (by have := pending_strtok delim s; omega)
      (pending_strtok delim s)]
    rw [List.take_of_length_le]
    have := collect_length_le delim s.length (strtok delim s)
    omega

theorem isDelim_single (c x : Char) : isDelim [c] x = true ↔ x = c := by
  simp [isDelim]

theorem fields_cons_delim (c : Char) (s : List Char) : fields c (c :: s) = fields c s := by
  simp [fields, List.splitOn, List.splitOnP_cons]

theorem fields_dropWhile (c : Char) (s : List Char) :
    fields c (s.dropWhile (isDelim [c])) = fields c s := by
  induction s with
  | nil => rfl
  | cons x xs ih =>
    by_cases h : x = c
    · subst h
      rw [List.dropWhile_cons_of_pos ((isDelim_single _ _).2 rfl), ih, fields_cons_delim]
    · rw [List.dropWhile_cons_of_neg (by simpa [isDelim_single] using h)]

theorem fields_none (c : Char) (s : List Char) (h : strtok [c] s = none) :
    fields c s = [] := by
  rw [← fields_dropWhile]
  unfold strtok at h
  split at h
  · next hd => rw [hd]; rfl
  · cases h

theorem fields_some (c : Char) (s : List Char) (t : Tok) (h : strtok [c] s = some t) :
    fields c s = t.text :: fields c t.rest := by
  rw [← fields_dropWhile]
  unfold strtok at h
  split at h
  · cases h
  · next x xs hd =>
    cases h
    rw [hd]
    simp only
    have hx : isDelim [c] x = false := by
      have := List.head_dropWhile_not (isDelim [c]) s (by rw [hd]; simp)
      simpa [hd] using this
    generalize hl : x :: xs = l
    have hne : l.takeWhile (fun y => !isDelim [c] y) ≠ [] := by
      rw [← hl]; simp [List.takeWhile_cons, hx]
    have hno : ∀ y ∈ l.takeWhile (fun y => !isDelim [c] y), ¬ ((fun z => z == c) y = true) := by
      intro y hy
      have := List.mem_takeWhile_imp hy
      simpa [isDelim] using this
    have hsplit : l = l.takeWhile (fun y => !isDelim [c] y) ++ l.dropWhile (fun y => !isDelim [c] y) :=
      (List.takeWhile_append_dropWhile _ _).symm
    cases hr : l.dropWhile (fun y => !isDelim [c] y) with
    | nil =>
      rw [hr] at hsplit
      simp only [List.append_nil] at hsplit
      rw [← hsplit] at hne hno ⊢
      simp only [List.drop_nil]
      unfold fields List.splitOn
      rw [List.splitOnP_eq_single _ _ hno]
      simp [hne]
    | cons y ys =>
      have hy : (fun z => z == c) y = true := by
        have := List.head_dropWhile_not (fun y => !isDelim [c] y) l (by rw [hr]; simp)
        simp only [hr, List.head_cons] at this
        simpa [isDelim] using this
      simp only [List.drop_succ_cons, List.drop_zero]
      conv_lhs => rw [hsplit, hr]
      unfold fields List.splitOn
      rw [List.splitOnP_first _ _ hno y hy]
      simp [hne]

theorem tokenize_text_aux (c : Char) :
    ∀ (n : Nat) (s : List Char), s.length ≤ n →
      (collect [c] n (strtok [c] s)).map Tok.text = fields c s := by
  intro n
  induction n with
  | zero =>
    intro s hs
    have : s = [] := List.length_eq_zero.1 (by omega)
    subst this
    simp [collect, fields]
  | succ n ih =>
    intro s hs
    cases h : strtok [c] s with
    | none => simp [collect, fields_none c s h]
    | some t =>
      have hl := strtok_rest_length [c] s t h
      simp only [collect, List.map_cons]
      rw [ih t.rest (by omega), fields_some c s t h]

/-- The tokens `strtok` finds with a one-byte delimiter set are the non-empty
fields of the line. -/
theorem tokenize_text (c : Char) (s : List Char) :
    (tokenize [c] s).map Tok.text = fields c s :=
  tokenize_text_aux c s.length s (Nat.le_refl _)

/-! ### Facts about the job stack -/

theorem handles_length (s : JobStack) (hwf : s.WellFormed) :
    (s.handles.length : Int) = s.bg_process_top + 1 := by
  obtain ⟨hl, h1, h2⟩ := hwf
  simp only [JobStack.handles, List.length_take, hl]
  omega

theorem push_ok (p : Int) (s : JobStack) (hwf : s.WellFormed) (h : s.bg_process_top < 99) :
    (push_bg_process p s).1.WellFormed ∧
    (push_bg_process p s).1.handles = s.handles ++ [p] ∧
    (push_bg_process p s).1.bg_process_top = s.bg_process_top + 1 ∧
    (push_bg_process p s).2 = [] := by
  obtain ⟨hl, h1, h2⟩ := hwf
  obtain ⟨n, hn⟩ : ∃ n : Nat, s.bg_process_top + 1 = n := ⟨(s.bg_process_top + 1).toNat, by omega⟩
  have hlt : s.bg_process_top < MAX_BG_PROCESSES - 1 := by simp only [MAX_BG_PROCESSES]; omega
  have hn100 : n < s.bg_process_stack.length := by omega
  simp only [push_bg_process, if_pos hlt, JobStack.WellFormed, JobStack.handles, List.length_set,
    and_true]
  refine ⟨⟨hl, by omega, by omega⟩, ?_⟩
  have e1 : (s.bg_process_top + 1 + 1).toNat = n + 1 := by omega
  have e2 : (s.bg_process_top + 1).toNat = n := by omega
  rw [e1, e2, List.take_succ, List.set_take, List.set_eq_of_length_le (by simp)]
  simp [hn100]

theorem pop_ok (s : JobStack) (hwf : s.WellFormed) (h : 0 ≤ s.bg_process_top) :
    (pop_bg_process s).2.1.WellFormed ∧
    s.handles = (pop_bg_process s).2.1.handles ++ [(pop_bg_process s).1] ∧
    (pop_bg_process s).2.1.bg_process_top = s.bg_process_top - 1 ∧
    (pop_bg_process s).2.2 = [] := by
  obtain ⟨hl, h1, h2⟩ := hwf
  obtain ⟨n, hn⟩ : ∃ n : Nat, s.bg_process_top = n := ⟨s.bg_process_top.toNat, by omega⟩
  have hge : s.bg_process_top ≥ 0 := h
  have hn100 : n < s.bg_process_stack.length := by omega
  simp only [pop_bg_process, if_pos hge, JobStack.WellFormed, JobStack.handles, and_true]
  refine ⟨⟨hl, by omega, by omega⟩, ?_⟩
  have e1 : (s.bg_process_top + 1).toNat = n + 1 := by omega
  have e2 : (s.bg_process_top - 1 + 1).toNat = n := by omega
  have e3 : s.bg_process_top.toNat = n := by omega
  rw [e1, e2, e3, List.take_succ]
  simp [hn100, List.getD_eq_getElem?_getD]

theorem push_all_ok : ∀ (ps : List Int) (s : JobStack), s.WellFormed →
    s.bg_process_top + ps.length ≤ 99 →
    (push_all ps s).1.WellFormed ∧
    (push_all ps s).1.handles = s.handles ++ ps ∧
    (push_all ps s).1.bg_process_top = s.bg_process_top + ps.length ∧
    (push_all ps s).2 = [] := by
  intro ps
  induction ps with
  | nil => intro s hwf _; simp [push_all, hwf]
  | cons p ps ih =>
    intro s hwf hroom
    simp only [List.length_cons, Nat.cast_add, Nat.cast_one] at hroom
    obtain ⟨w1, w2, w3, w4⟩ := push_ok p s hwf (by omega)
    obtain ⟨v1, v2, v3, v4⟩ := ih (push_bg_process p s).1 w1 (by rw [w3]; omega)
    simp only [push_all]
    refine ⟨v1, ?_, ?_, ?_⟩
    · rw [v2, w2]; simp
    · rw [v3, w3]; simp only [List.length_cons, Nat.cast_add, Nat.cast_one]; omega
    · rw [v4, w4]; rfl

theorem pop_n_ok : ∀ (k : Nat) (ps hs : List Int) (s : JobStack), ps.length = k →
    s.WellFormed → s.handles = hs ++ ps →
    (pop_n k s).1 = ps.reverse ∧
    (pop_n k s).2.1.WellFormed ∧
    (pop_n k s).2.1.handles = hs ∧
    (pop_n k s).2.1.bg_process_top = s.bg_process_top - k ∧
    (pop_n k s).2.2 = [] := by
  intro k
  induction k with
  | zero =>
    intro ps hs s hk hwf hh
    have : ps = [] := List.length_eq_zero.1 hk
    subst this
    simpa [pop_n, hwf] using hh
  | succ k ih =>
    intro ps hs s hk hwf hh
    have hne : ps ≠ [] := by intro h; subst h; simp at hk
    obtain ⟨qs, q, rfl⟩ : ∃ qs q, ps = qs ++ [q] :=
      ⟨ps.dropLast, ps.getLast hne, (List.dropLast_append_getLast hne).symm⟩
    have hlen := handles_length s hwf
    have htop : 0 ≤ s.bg_process_top := by
      rw [hh] at hlen
      simp only [List.length_append, List.length_cons, List.length_nil, Nat.cast_add,
        Nat.cast_one] at hlen
      omega
    obtain ⟨w1, w2, w3, w4⟩ := pop_ok s hwf htop
    rw [hh, ← List.append_assoc] at w2
    have hinj := List.append_inj' w2 rfl
    have hq : (pop_bg_process s).1 = q := by simpa using hinj.2.symm
    have hk' : qs.length = k := by simpa using hk
    obtain ⟨v1, v2, v3, v4, v5⟩ := ih qs hs (pop_bg_process s).2.1 hk' w1 hinj.1.symm
    simp only [pop_n]
    refine ⟨?_, v2, v3, ?_, ?_⟩
    · rw [v1, hq]; simp
    · rw [v4, w3]; push_cast; omega
    · rw [v5, w4]; rfl

theorem run_ops_wellFormed : ∀ (ops : List StackOp) (s : JobStack), s.WellFormed →
    (run_ops ops s).WellFormed := by
  intro ops
  induction ops with
  | nil => intro s h; exact h
  | cons op ops ih =>
    intro s h
    cases op with
    | push pid =>
      simp only [run_ops]
      apply ih
      by_cases ht : s.bg_process_top < 99
      · exact (push_ok pid s h ht).1
      · have : ¬ s.bg_process_top < MAX_BG_PROCESSES - 1 := by simp only [MAX_BG_PROCESSES]; omega
        simpa [push_bg_process, this] using h
    | pop =>
      simp only [run_ops]
      apply ih
      by_cases ht : 0 ≤ s.bg_process_top
      · exact (pop_ok s h ht).1
      · have : ¬ s.bg_process_top ≥ 0 := ht
        simpa [pop_bg_process, this] using h

theorem initial_wellFormed : JobStack.initial.WellFormed := by
  simp [JobStack.initial, JobStack.WellFormed]

/-- C5: from a well-formed stack with room for the handles `ps`, pushing them
and then popping as many times returns them in reverse order, without any error
message, and gives back the top index and the stored handles from before. -/
theorem job_stack_lifo_round_trip (s : JobStack) (ps : List Int) (hwf : s.WellFormed)
    (hroom : s.handles.length + ps.length ≤ 100) :
    (push_all ps s).2 = [] ∧
    (pop_n ps.length (push_all ps s).1).1 = ps.reverse ∧
    (pop_n ps.length (push_all ps s).1).2.1.handles = s.handles ∧
    (pop_n ps.length (push_all ps s).1).2.1.bg_process_top = s.bg_process_top ∧
    (pop_n ps.length (push_all ps s).1).2.2 = [] := by
  have hlen := handles_length s hwf
  obtain ⟨w1, w2, w3, w4⟩ := push_all_ok ps s hwf (by omega)
  obtain ⟨v1, _, v3, v4, v5⟩ := pop_n_ok ps.length ps s.handles (push_all ps s).1 rfl w1 w2
  exact ⟨w4, v1, v3, by rw [v4, w3]; omega, v5⟩

theorem job_stack_lifo_round_trip_witness :
    JobStack.initial.WellFormed ∧ JobStack.initial.handles.length + [11, 22, 33].length ≤ 100 ∧
    (pop_n 3 (push_all [11, 22, 33] JobStack.initial).1).1 = [33, 22, 11] ∧
    (pop_n 3 (push_all [11, 22, 33] JobStack.initial).1).2.1.handles = [] :=
  ⟨initial_wellFormed, by decide,
   (job_stack_lifo_round_trip JobStack.initial [11, 22, 33] initial_wellFormed (by decide)).2.1,
   (job_stack_lifo_round_trip JobStack.initial [11, 22, 33] initial_wellFormed (by decide)).2.2.1⟩

/-- C6: a push on a stack that holds 100 handles and a pop on an empty stack
report their error and leave the state as it was, the pop returns -1 and
`execute_foreground` then waits on nothing; after any sequence of pushes and
pops from the initial state the number of stored handles is between 0 and 100. -/
theorem job_stack_rejected_operations :
    (∀ (pid : Int) (s : JobStack), s.handles.length = 100 →
      push_bg_process pid s = (s, [Event.error "Background process stack overflow."])) ∧
    (∀ s : JobStack, s.WellFormed → s.handles = [] →
      pop_bg_process s = (-1, s, [Event.error "No background process found."]) ∧
      execute_foreground s = (s, [Event.error "No background process found."])) ∧
    (∀ ops : List StackOp,
      (run_ops ops JobStack.initial).WellFormed ∧
      ((run_ops ops JobStack.initial).handles.length : Int)
        = (run_ops ops JobStack.initial).bg_process_top + 1 ∧
      0 ≤ (run_ops ops JobStack.initial).handles.length ∧
      (run_ops ops JobStack.initial).handles.length ≤ 100) := by
  refine ⟨?_, ?_, ?_⟩
  · intro pid s h
    have : ¬ s.bg_process_top < MAX_BG_PROCESSES - 1 := by
      simp only [JobStack.handles, List.length_take] at h
      simp only [MAX_BG_PROCESSES]
      omega
    simp [push_bg_process, this]
  · intro s hwf h
    have hlen := handles_length s hwf
    rw [h] at hlen
    have : ¬ s.bg_process_top ≥ 0 := by simp at hlen; omega
    simp [execute_foreground, pop_bg_process, this]
  · intro ops
    have hwf := run_ops_wellFormed ops JobStack.initial initial_wellFormed
    have hlen := handles_length _ hwf
    obtain ⟨_, h1, h2⟩ := hwf
    exact ⟨run_ops_wellFormed ops JobStack.initial initial_wellFormed, hlen, Nat.zero_le _, by omega⟩

theorem job_stack_rejected_operations_witness :
    push_bg_process 7 (push_all (List.replicate 100 5) JobStack.initial).1
      = ((push_all (List.replicate 100 5) JobStack.initial).1,
          [Event.error "Background process stack overflow."]) ∧
    execute_foreground JobStack.initial
      = (JobStack.initial, [Event.error "No background process found."]) ∧
    (run_ops [StackOp.pop, StackOp.push 4, StackOp.push 5, StackOp.pop]
      JobStack.initial).handles.length ≤ 100 :=
  ⟨job_stack_rejected_operations.1 7 _
      (by rw [(push_all_ok (List.replicate 100 5) JobStack.initial initial_wellFormed
            (by simp [JobStack.initial])).2.1]; simp [JobStack.initial, JobStack.handles]),
   (job_stack_rejected_operations.2.1 JobStack.initial initial_wellFormed
      (by simp [JobStack.initial, JobStack.handles])).2,
   (job_stack_rejected_operations.2.2 _).2.2.2⟩

/-! ### Simple, sequential and pipe execution -/

theorem execute_command_args (env : Env) (k : Nat) (cmd : List Char) :
    execute_command env k cmd =
      if (fields ' ' cmd).length ≥ 4 then env.out_of_bounds k (fields ' ' cmd)
      else if (fields ' ' cmd).length < 1 ∨ (fields ' ' cmd).length > 4 then
        (-1, [Event.error "Invalid number of arguments. Maximum is 4."])
      else
        match env.fork k with
        | some pid =>
          (exit_status (env.wstatus k),
            [Event.fork k pid (Child.execvp (fields ' ' cmd)), Event.waitpid pid])
        | none => (-1, [Event.perror "fork in execute_command"]) := by
  simp only [execute_command, tokenize_text, MAX_ARGS]

/-- C2 (amended): with between 1 and 3 non-empty space-separated tokens,
`execute_command` creates one child running exactly those tokens and returns its
exit status (-1 if it did not exit normally) when `fork` succeeds, and creates
no child, reports the failure of `fork` and returns -1 when `fork` fails; with
no token it creates no child, reports the arity error and returns -1.  Lines of
4 tokens or more, on which the code stores outside `args`, are left out. -/
theorem execute_command_arity (env : Env) (k : Nat) (cmd : List Char) :
    (1 ≤ (fields ' ' cmd).length ∧ (fields ' ' cmd).length ≤ 3 →
      (∀ pid, env.fork k = some pid →
        execute_command env k cmd =
          (exit_status (env.wstatus k),
            [Event.fork k pid (Child.execvp (fields ' ' cmd)), Event.waitpid pid]) ∧
        spawned (execute_command env k cmd).2 = [Child.execvp (fields ' ' cmd)]) ∧
      (env.fork k = none →
        execute_command env k cmd = (-1, [Event.perror "fork in execute_command"]) ∧
        spawned (execute_command env k cmd).2 = [])) ∧
    ((fields ' ' cmd).length = 0 →
      execute_command env k cmd
        = (-1, [Event.error "Invalid number of arguments. Maximum is 4."]) ∧
      spawned (execute_command env k cmd).2 = []) := by
  rw [execute_command_args]
  refine ⟨?_, ?_⟩
  · intro h
    have h0 : ¬ (fields ' ' cmd).length ≥ 4 := by omega
    have h' : ¬ ((fields ' ' cmd).length < 1 ∨ (fields ' ' cmd).length > 4) := by omega
    rw [if_neg h0, if_neg h']
    refine ⟨?_, ?_⟩
    · intro pid hp; rw [hp]; simp [spawned]
    · intro hp; rw [hp]; simp [spawned]
  · intro h
    have h0 : ¬ (fields ' ' cmd).length ≥ 4 := by omega
    have h' : (fields ' ' cmd).length < 1 ∨ (fields ' ' cmd).length > 4 := by omega
    rw [if_neg h0, if_pos h']
    simp [spawned]

theorem execute_command_arity_witness :
    (1 ≤ (fields ' ' ['l', 's', ' ', '-', 'l']).length ∧
      (fields ' ' ['l', 's', ' ', '-', 'l']).length ≤ 3) ∧
    execute_command (env_ok (fun _ => 3)) 0 ['l', 's', ' ', '-', 'l'] =
      (3, [Event.fork 0 100 (Child.execvp [['l', 's'], ['-', 'l']]), Event.waitpid 100]) ∧
    execute_command env_no_fork 0 ['l', 's', ' ', '-', 'l'] =
      (-1, [Event.perror "fork in execute_command"]) :=
  ⟨by decide,
   ((execute_command_arity (env_ok (fun _ => 3)) 0 ['l', 's', ' ', '-', 'l']).1 (by decide)).1
      100 rfl |>.1,
   ((execute_command_arity env_no_fork 0 ['l', 's', ' ', '-', 'l']).1 (by decide)).2 rfl |>.1⟩

/-- C2 as stated fails: the line `ls` has one token, yet when `fork` fails
`execute_command` creates no child. -/
theorem execute_command_fork_failure :
    ¬ ∀ (env : Env) (k : Nat) (cmd : List Char),
      1 ≤ (fields ' ' cmd).length → (fields ' ' cmd).length ≤ 4 →
        spawned (execute_command env k cmd).2 = [Child.execvp (fields ' ' cmd)] ∧
        (execute_command env k cmd).1 = exit_status (env.wstatus k) := by
  intro h
  have h1 := (h env_no_fork 0 ['l', 's'] (by decide) (by decide)).1
  rw [execute_command_args, if_neg (by decide), if_neg (by decide)] at h1
  cases h1

theorem collect_text_eq_take_fields (c : Char) (s : List Char) (n : Nat) :
    (collect [c] n (strtok [c] s)).map Tok.text = (fields c s).take n := by
  rw [collect_eq_take_tokenize, ← tokenize_text, List.map_take]

theorem sequential_loop_eq (env : Env) : ∀ (cs : List (List Char)) (i : Nat),
    sequential_loop env cs i
      = ((cs.enumFrom i).map (fun ic => (execute_command env ic.1 ic.2).2)).flatten := by
  intro cs
  induction cs with
  | nil => intro i; rfl
  | cons c cs ih =>
    intro i
    simp only [sequential_loop, List.enumFrom_cons, List.map_cons, List.flatten_cons, ih]

/-- Whatever the line, `execute_sequential` runs the first four of its
sub-commands: the test `num_commands > 4` never holds after a loop that stops
at `num_commands < 4`. -/
theorem execute_sequential_eq (env : Env) (cmd : List Char) :
    execute_sequential env cmd
      = ((((fields ';' cmd).take 4).enum).map
          (fun ic => (execute_command env ic.1 ic.2).2)).flatten := by
  have hlen : ¬ ((fields ';' cmd).take 4).length > 4 := by
    simp only [List.length_take]; omega
  simp only [execute_sequential, collect_text_eq_take_fields, if_neg hlen, sequential_loop_eq,
    List.enum]

/-- C7: on a line of between 1 and 4 sub-commands separated by `;`,
`execute_sequential` makes call number `i` of `execute_command` on the
sub-command at position `i`, for every position in order, whatever the answers
of the environment (so whatever the earlier calls return). -/
theorem execute_sequential_runs_each (env : Env) (cmd : List Char)
    (h1 : 1 ≤ (fields ';' cmd).length) (h4 : (fields ';' cmd).length ≤ 4) :
    execute_sequential env cmd
      = (((fields ';' cmd).enum).map
          (fun ic => (execute_command env ic.1 ic.2).2)).flatten ∧
    (((fields ';' cmd).enum).map (fun ic => (execute_command env ic.1 ic.2).2)).length
      = (fields ';' cmd).length := by
  have _ := h1
  rw [execute_sequential_eq, List.take_of_length_le h4]
  simp

theorem execute_sequential_runs_each_witness :
    1 ≤ (fields ';' "cmd1 ; cmd2 ; cmd3".toList).length ∧
    (fields ';' "cmd1 ; cmd2 ; cmd3".toList).length ≤ 4 ∧
    execute_sequential (env_ok (fun i => if i = 0 then 1 else 0)) "cmd1 ; cmd2 ; cmd3".toList
      = [Event.fork 0 100 (Child.execvp ["cmd1".toList]), Event.waitpid 100,
         Event.fork 1 101 (Child.execvp ["cmd2".toList]), Event.waitpid 101,
         Event.fork 2 102 (Child.execvp ["cmd3".toList]), Event.waitpid 102] :=
  ⟨by decide, by decide,
   (execute_sequential_runs_each (env_ok (fun i => if i = 0 then 1 else 0))
      "cmd1 ; cmd2 ; cmd3".toList (by decide) (by decide)).1⟩

/-- C9 (the code at the failing input): on `a;b;c;d;e`, a line of five
sub-commands, `execute_sequential` reports nothing and runs `a`, `b`, `c` and
`d`. -/
theorem execute_sequential_five_commands :
    (fields ';' "a;b;c;d;e".toList).length = 5 ∧
    execute_sequential (env_ok (fun _ => 0)) "a;b;c;d;e".toList
      = [Event.fork 0 100 (Child.execvp [['a']]), Event.waitpid 100,
         Event.fork 1 101 (Child.execvp [['b']]), Event.waitpid 101,
         Event.fork 2 102 (Child.execvp [['c']]), Event.waitpid 102,
         Event.fork 3 103 (Child.execvp [['d']]), Event.waitpid 103] := by
  refine ⟨by decide, ?_⟩
  rw [execute_sequential_eq]
  rfl

/-- C8: on a line with more than 4 non-empty sub-commands between `|`,
`execute_pipe` reports the error and nothing else: no pipe, no child. -/
theorem execute_pipe_too_many (env : Env) (cmd : List Char)
    (h : 4 < (fields '|' cmd).length) :
    execute_pipe env cmd = [Event.error "Error: Too many commands for piping. Maximum is 4."] ∧
    spawned (execute_pipe env cmd) = [] ∧
    ∀ i, Event.pipe i ∉ execute_pipe env cmd := by
  have hlen : ((fields '|' cmd).take 5).length > 4 := by
    simp only [List.length_take]; omega
  have e : execute_pipe env cmd
      = [Event.error "Error: Too many commands for piping. Maximum is 4."] := by
    simp only [execute_pipe, collect_text_eq_take_fields, if_pos hlen]
  rw [e]
  simp [spawned]

theorem execute_pipe_too_many_witness :
    4 < (fields '|' "a|b|c|d|e".toList).length ∧
    execute_pipe (env_ok (fun _ => 0)) "a|b|c|d|e".toList
      = [Event.error "Error: Too many commands for piping. Maximum is 4."] :=
  ⟨by decide, (execute_pipe_too_many (env_ok (fun _ => 0)) "a|b|c|d|e".toList (by decide)).1⟩

/-! ### Conditional execution -/

theorem executed_nil (i : Nat) : ¬ executed [] i := by
  simp [executed]

theorem executed_append (xs ys : List Event) (j : Nat) :
    executed (xs ++ ys) j ↔ executed xs j ∨ executed ys j := by
  simp only [executed, List.mem_append]
  constructor
  · rintro ⟨pid, child, h | h⟩
    · exact Or.inl ⟨pid, child, h⟩
    · exact Or.inr ⟨pid, child, h⟩
  · rintro (⟨pid, child, h⟩ | ⟨pid, child, h⟩)
    · exact ⟨pid, child, Or.inl h⟩
    · exact ⟨pid, child, Or.inr h⟩

theorem executed_step (i : Nat) (pid : Int) (c : List Char) (j : Nat) :
    executed [Event.pipe i, Event.fork i pid (Child.captured c), Event.waitpid pid] j ↔ j = i := by
  simp only [executed, List.mem_cons, List.mem_singleton, false_or, or_false, Event.fork.injEq,
    reduceCtorEq, List.not_mem_nil]
  constructor
  · rintro ⟨_, _, h, _, _⟩; exact h
  · rintro rfl; exact ⟨pid, Child.captured c, rfl, rfl, rfl⟩

/-- Iteration `i` of the evaluation loop when it is not skipped and `pipe` and
`fork` succeed. -/
theorem conditional_loop_step (env : Env) (n : Nat) (types : List (Option Nat))
    (c : List Char) (cs : List (List Char)) (i : Nat) (ls : Int) (pid : Int)
    (hp : env.pipe i = true) (hf : env.fork i = some pid) :
    conditional_loop env n types (c :: cs) i ls false =
      [Event.pipe i, Event.fork i pid (Child.captured c), Event.waitpid pid] ++
        (if i + 1 < n ∧ types[i]? = some (some 1) ∧ exit_status (env.wstatus i) ≠ 0 then []
         else conditional_loop env n types cs (i + 1) (exit_status (env.wstatus i))
           (decide (i + 1 < n ∧ types[i]? = some (some 2) ∧ exit_status (env.wstatus i) = 0))) := by
  simp only [conditional_loop, hp, hf, if_true, Bool.false_eq_true, if_false]
  by_cases h1 : i + 1 < n
  · by_cases h2 : types[i]? = some (some 1) ∧ exit_status (env.wstatus i) ≠ 0
    · simp [h1, h2]
    · by_cases h3 : types[i]? = some (some 2) ∧ exit_status (env.wstatus i) = 0
      · have h2' : ¬ (types[i]? = some (some 1) ∧ ¬ exit_status (env.wstatus i) = 0) := h2
        simp [h1, h2', h3]
      · have h2' : ¬ (types[i]? = some (some 1) ∧ ¬ exit_status (env.wstatus i) = 0) := h2
        simp only [h1, if_true, h2', if_false, h3, true_and, List.cons_append, List.nil_append,
          decide_False]
  · simp [h1]

/-- Iteration `i` creates a child only if it is not skipped and both calls succeed. -/
theorem conditional_loop_cases (env : Env) (n : Nat) (types : List (Option Nat))
    (c : List Char) (cs : List (List Char)) (i : Nat) (ls : Int) (sk : Bool) :
    (sk = true ∧ conditional_loop env n types (c :: cs) i ls sk
        = conditional_loop env n types cs (i + 1) ls false) ∨
    (sk = false ∧ (∀ j, ¬ executed (conditional_loop env n types (c :: cs) i ls sk) j)) ∨
    (sk = false ∧ env.pipe i = true ∧ ∃ pid, env.fork i = some pid) := by
  cases sk with
  | true => left; simp [conditional_loop]
  | false =>
    right
    by_cases hp : env.pipe i = true
    · cases hf : env.fork i with
      | some pid => right; exact ⟨rfl, hp, pid, rfl⟩
      | none =>
        left
        refine ⟨rfl, fun j => ?_⟩
        simp [conditional_loop, hp, hf, executed]
    · left
      refine ⟨rfl, fun j => ?_⟩
      simp [conditional_loop, hp, executed]

/-- The loop entered at iteration `i` creates children for iterations from `i`
up to the last command only. -/
theorem conditional_loop_range (env : Env) (n : Nat) (types : List (Option Nat)) :
    ∀ (cs : List (List Char)) (i : Nat) (ls : Int) (sk : Bool) (j : Nat),
      executed (conditional_loop env n types cs i ls sk) j → i ≤ j ∧ j < i + cs.length := by
  intro cs
  induction cs with
  | nil => intro i ls sk j h; simp [conditional_loop, executed] at h
  | cons c cs ih =>
    intro i ls sk j h
    rcases conditional_loop_cases env n types c cs i ls sk with ⟨_, e⟩ | ⟨_, e⟩ | ⟨rfl, hp, pid, hf⟩
    · rw [e] at h
      have := ih _ _ _ _ h
      simp only [List.length_cons]; omega
    · exact absurd h (e j)
    · rw [conditional_loop_step env n types c cs i ls pid hp hf, executed_append,
        executed_step] at h
      simp only [List.length_cons]
      rcases h with rfl | h
      · omega
      · split at h
        · exact absurd h (executed_nil j)
        · have := ih _ _ _ _ h
          omega


/-- AND stops the loop: once a child that was run before `&&` ends with a status
other than 0, no later iteration creates a child. -/
theorem conditional_loop_and (env : Env) (n : Nat) (types : List (Option Nat)) (i : Nat)
    (hn : i + 1 < n) (ht : types[i]? = some (some 1)) (hs : exit_status (env.wstatus i) ≠ 0) :
    ∀ (cs : List (List Char)) (i0 : Nat) (ls : Int) (sk : Bool),
      executed (conditional_loop env n types cs i0 ls sk) i →
      ∀ j, i < j → ¬ executed (conditional_loop env n types cs i0 ls sk) j := by
  intro cs
  induction cs with
  | nil => intro i0 ls sk h; simp [conditional_loop, executed] at h
  | cons c cs ih =>
    intro i0 ls sk h j hj
    rcases conditional_loop_cases env n types c cs i0 ls sk with ⟨_, e⟩ | ⟨_, e⟩ | ⟨rfl, hp, pid, hf⟩
    · rw [e] at h ⊢
      exact ih _ _ _ h j hj
    · exact e j
    · rw [conditional_loop_step env n types c cs i0 ls pid hp hf, executed_append,
        executed_step] at h ⊢
      by_cases hc : i0 + 1 < n ∧ types[i0]? = some (some 1) ∧ exit_status (env.wstatus i0) ≠ 0
      · rw [if_pos hc] at h ⊢
        rcases h with rfl | h
        · rintro (rfl | h')
          · omega
          · exact executed_nil _ h'
        · exact absurd h (executed_nil _)
      · rw [if_neg hc] at h ⊢
        rcases h with rfl | h
        · exact absurd ⟨hn, ht, hs⟩ hc
        · have hr := conditional_loop_range env n types _ _ _ _ _ h
          rintro (rfl | h')
          · omega
          · exact ih _ _ _ h j hj h'

theorem conditional_loop_skip_first (env : Env) (n : Nat) (types : List (Option Nat))
    (cs : List (List Char)) (i : Nat) (ls : Int) :
    ¬ executed (conditional_loop env n types cs i ls true) i := by
  intro h
  cases cs with
  | nil => simp [conditional_loop, executed] at h
  | cons c cs =>
    simp only [conditional_loop, if_true] at h
    have := conditional_loop_range env n types _ _ _ _ _ h
    omega

theorem conditional_loop_runs_first (env : Env) (n : Nat) (types : List (Option Nat))
    (c : List Char) (cs : List (List Char)) (i : Nat) (ls : Int)
    (hp : env.pipe i = true) (hf : (env.fork i).isSome = true) :
    executed (conditional_loop env n types (c :: cs) i ls false) i := by
  obtain ⟨pid, hpid⟩ := Option.isSome_iff_exists.1 hf
  rw [conditional_loop_step env n types c cs i ls pid hp hpid, executed_append, executed_step]
  exact Or.inl rfl

theorem conditional_loop_resumes (env : Env) (n : Nat) (types : List (Option Nat))
    (cs : List (List Char)) (i : Nat) (ls : Int) (hlen : 1 < cs.length)
    (hp : env.pipe (i + 1) = true) (hf : (env.fork (i + 1)).isSome = true) :
    executed (conditional_loop env n types cs i ls true) (i + 1) := by
  match cs, hlen with
  | _ :: c' :: cs', _ =>
    simp only [conditional_loop, if_true]
    exact conditional_loop_runs_first env n types c' cs' (i + 1) ls hp hf

/-- OR skips one: once a child that was run before `||` ends with status 0, the
next iteration creates no child and the one after it does. -/
theorem conditional_loop_or (env : Env) (n : Nat) (types : List (Option Nat)) (i : Nat)
    (hn : i + 1 < n) (ht : types[i]? = some (some 2)) (hs : exit_status (env.wstatus i) = 0) :
    ∀ (cs : List (List Char)) (i0 : Nat) (ls : Int) (sk : Bool),
      executed (conditional_loop env n types cs i0 ls sk) i →
      ¬ executed (conditional_loop env n types cs i0 ls sk) (i + 1) ∧
      (i + 2 < i0 + cs.length → env.pipe (i + 2) = true → (env.fork (i + 2)).isSome = true →
        executed (conditional_loop env n types cs i0 ls sk) (i + 2)) := by
  intro cs
  induction cs with
  | nil => intro i0 ls sk h; simp [conditional_loop, executed] at h
  | cons c cs ih =>
    intro i0 ls sk h
    rcases conditional_loop_cases env n types c cs i0 ls sk with ⟨_, e⟩ | ⟨_, e⟩ | ⟨rfl, hp, pid, hf⟩
    · rw [e] at h ⊢
      obtain ⟨a, b⟩ := ih _ _ _ h
      exact ⟨a, fun hlt => b (by simp only [List.length_cons] at hlt; omega)⟩
    · exact absurd h (e i)
    · rw [conditional_loop_step env n types c cs i0 ls pid hp hf] at h ⊢
      simp only [executed_append, executed_step] at h ⊢
      by_cases hc : i0 + 1 < n ∧ types[i0]? = some (some 1) ∧ exit_status (env.wstatus i0) ≠ 0
      · rw [if_pos hc] at h
        rcases h with rfl | h
        · rw [ht] at hc
          exact absurd hc.2.1 (by decide)
        · exact absurd h (executed_nil _)
      · rw [if_neg hc] at h ⊢
        rcases h with rfl | h
        · have hd : decide (i + 1 < n ∧ types[i]? = some (some 2)
              ∧ exit_status (env.wstatus i) = 0) = true := decide_eq_true ⟨hn, ht, hs⟩
          rw [hd]
          refine ⟨?_, fun hlt hp2 hf2 => Or.inr ?_⟩
          · rintro (h' | h')
            · omega
            · exact conditional_loop_skip_first env n types cs (i + 1) _ h'
          · exact conditional_loop_resumes env n types cs (i + 1) _
              (by simp only [List.length_cons] at hlt; omega) hp2 hf2
        · have hr := conditional_loop_range env n types _ _ _ _ _ h
          obtain ⟨a, b⟩ := ih _ _ _ h
          refine ⟨?_, fun hlt hp2 hf2 => Or.inr (b ?_ hp2 hf2)⟩
          · rintro (h' | h')
            · omega
            · exact a h'
          · simp only [List.length_cons] at hlt; omega


theorem strtok_cut_length (delim s : List Char) (t : Tok) (h : strtok delim s = some t) :
    t.cut.length ≤ 1 := by
  unfold strtok at h
  split at h
  · cases h
  · cases h
    simp only [List.length_take]
    omega

theorem collect_cut_length (delim : List Char) :
    ∀ (n : Nat) (tok : Option Tok), (∀ t0, tok = some t0 → t0.cut.length ≤ 1) →
      ∀ t ∈ collect delim n tok, t.cut.length ≤ 1 := by
  intro n
  induction n with
  | zero => intro tok _ t ht; simp [collect] at ht
  | succ n ih =>
    intro tok h0 t ht
    cases tok with
    | none => simp [collect] at ht
    | some t0 =>
      simp only [collect, List.mem_cons] at ht
      rcases ht with rfl | ht
      · exact h0 _ rfl
      · exact ih _ (fun t1 h1 => strtok_cut_length delim _ t1 h1) t ht

theorem conditional_parse_length_le :
    ∀ (n : Nat) (tok : Option Tok), (conditional_parse n tok).length ≤ n := by
  intro n
  induction n with
  | zero => intro tok; simp [conditional_parse]
  | succ n ih =>
    intro tok
    cases tok with
    | none => simp [conditional_parse]
    | some t =>
      simp only [conditional_parse, List.length_cons]
      have := ih (strtok ['&', '|'] t.rest)
      omega

/-- The entry of `types` written for position `i` is decided by the byte in
front of the token at position `i + 1`. -/
theorem conditional_parse_types :
    ∀ (n m : Nat) (tok : Option Tok) (i : Nat) (a b : Tok),
      (collect ['&', '|'] m tok)[i]? = some a → (collect ['&', '|'] m tok)[i + 1]? = some b →
      i + 1 < (conditional_parse n tok).length →
      ((conditional_parse n tok).map Prod.snd)[i]?
        = some (some (if byte_before b = '&' then 1 else 2)) := by
  intro n
  induction n with
  | zero => intro m tok i a b _ _ h; simp [conditional_parse] at h
  | succ n ih =>
    intro m tok i a b ha hb h
    cases tok with
    | none => simp [conditional_parse] at h
    | some t =>
      cases m with
      | zero => simp [collect] at ha
      | succ m =>
        simp only [collect] at ha hb
        simp only [conditional_parse, List.length_cons, List.map_cons] at h ⊢
        cases i with
        | zero =>
          simp only [zero_add, List.getElem?_cons_succ, List.getElem?_cons_zero] at hb ⊢
          cases m with
          | zero => simp [collect] at hb
          | succ m =>
            cases hst : strtok ['&', '|'] t.rest with
            | none => rw [hst] at hb; simp [collect] at hb
            | some t' =>
              rw [hst] at hb
              simp only [collect, List.getElem?_cons_zero, Option.some.injEq] at hb
              subst hb
              rfl
        | succ i =>
          simp only [List.getElem?_cons_succ] at ha hb ⊢
          exact ih m _ i a b ha hb (by omega)

theorem separator_after_eq (cmd : List Char) (i : Nat) (sep : List Char)
    (h : separator_after cmd i = some sep) :
    ∃ a b, (tokenize ['&', '|'] cmd)[i]? = some a ∧ (tokenize ['&', '|'] cmd)[i + 1]? = some b ∧
      a.cut ++ b.skipped = sep ∧ a.cut.length ≤ 1 := by
  unfold separator_after at h
  split at h
  · next a b ha hb =>
    refine ⟨a, b, ha, hb, by simpa using h, ?_⟩
    exact collect_cut_length ['&', '|'] cmd.length (strtok ['&', '|'] cmd)
      (fun t0 h0 => strtok_cut_length _ _ t0 h0) a (List.getElem?_mem ha)
  · cases h

theorem execute_conditional_eq (env : Env) (cmd : List Char) :
    execute_conditional env cmd =
      conditional_loop env (conditional_commands cmd).length
        ((conditional_parse 5 (strtok ['&', '|'] cmd)).map Prod.snd)
        (conditional_commands cmd) 0 0 false := by
  have h := conditional_parse_length_le 5 (strtok ['&', '|'] cmd)
  have h' : ¬ ((conditional_parse 5 (strtok ['&', '|'] cmd)).map Prod.fst).length > 5 := by
    simp only [List.length_map]; omega
  simp only [execute_conditional, conditional_commands, if_neg h']

/-- C3: if the sub-command at position `i` of a conditional line is executed,
ends with a status other than 0 (an exit code or the -1 of an abnormal end) and
is followed by the separator `&&`, then no sub-command at a later position is
executed. -/
theorem conditional_and_short_circuit (env : Env) (cmd : List Char) (i : Nat)
    (hsep : separator_after cmd i = some ['&', '&'])
    (hex : executed (execute_conditional env cmd) i)
    (hst : exit_status (env.wstatus i) ≠ 0) :
    ∀ j, i < j → ¬ executed (execute_conditional env cmd) j := by
  intro j hj
  rw [execute_conditional_eq] at hex ⊢
  by_cases hn : i + 1 < (conditional_commands cmd).length
  · obtain ⟨a, b, ha, hb, hab, hcut⟩ := separator_after_eq cmd i _ hsep
    have hn' : i + 1 < (conditional_parse 5 (strtok ['&', '|'] cmd)).length := by
      simpa [conditional_commands] using hn
    have ht := conditional_parse_types 5 cmd.length (strtok ['&', '|'] cmd) i a b ha hb hn'
    have hb' : byte_before b = '&' := by
      unfold byte_before
      match hc : a.cut, hsk : b.skipped with
      | [], sk => rw [hc, hsk] at hab; simp only [List.nil_append] at hab; subst hab; rfl
      | [x], sk =>
        rw [hc, hsk] at hab
        simp only [List.singleton_append, List.cons.injEq] at hab
        rw [hab.2]; rfl
      | x :: y :: l, sk => rw [hc] at hcut; simp at hcut
    rw [if_pos hb'] at ht
    exact conditional_loop_and env _ _ i hn ht hst _ _ _ _ hex j hj
  · intro h
    have := conditional_loop_range env _ _ _ _ _ _ _ h
    omega


theorem conditional_and_short_circuit_witness :
    separator_after "false && true".toList 0 = some ['&', '&'] ∧
    executed (execute_conditional (env_ok (fun i => if i = 0 then 1 else 0))
      "false && true".toList) 0 ∧
    exit_status ((env_ok (fun i => if i = 0 then 1 else 0)).wstatus 0) ≠ 0 ∧
    ¬ executed (execute_conditional (env_ok (fun i => if i = 0 then 1 else 0))
      "false && true".toList) 1 :=
  ⟨by decide, ⟨100, Child.captured "false".toList, by decide⟩, by decide,
   conditional_and_short_circuit (env_ok (fun i => if i = 0 then 1 else 0))
     "false && true".toList 0 (by decide) ⟨100, Child.captured "false".toList, by decide⟩
     (by decide) 1 (by decide)⟩

/-- C4: if the sub-command at position `i` of a conditional line is executed,
ends with status 0 and is followed by the separator `||`, then the sub-command
at position `i + 1` is not executed, and the one at position `i + 2`, when the
line has one and `pipe` and `fork` succeed for it, is executed, whatever
separator follows position `i + 1`. -/
theorem conditional_or_skips_one (env : Env) (cmd : List Char) (i : Nat)
    (hsep : separator_after cmd i = some ['|', '|'])
    (hex : executed (execute_conditional env cmd) i)
    (hst : exit_status (env.wstatus i) = 0) :
    ¬ executed (execute_conditional env cmd) (i + 1) ∧
    (i + 2 < (conditional_commands cmd).length → env.pipe (i + 2) = true →
      (env.fork (i + 2)).isSome = true → executed (execute_conditional env cmd) (i + 2)) := by
  rw [execute_conditional_eq] at hex ⊢
  by_cases hn : i + 1 < (conditional_commands cmd).length
  · obtain ⟨a, b, ha, hb, hab, _⟩ := separator_after_eq cmd i _ hsep
    have hn' : i + 1 < (conditional_parse 5 (strtok ['&', '|'] cmd)).length := by
      simpa [conditional_commands] using hn
    have ht := conditional_parse_types 5 cmd.length (strtok ['&', '|'] cmd) i a b ha hb hn'
    have hb' : ¬ byte_before b = '&' := by
      unfold byte_before
      match hc : a.cut, hsk : b.skipped with
      | [], sk =>
        rw [hc, hsk] at hab; simp only [List.nil_append] at hab; subst hab; decide
      | [x], sk =>
        rw [hc, hsk] at hab
        simp only [List.singleton_append, List.cons.injEq] at hab
        rw [hab.2]; decide
      | x :: y :: l, sk =>
        rw [hc, hsk] at hab
        simp only [List.cons_append, List.cons.injEq] at hab
        have : sk = [] := by
          have h3 := hab.2.2
          simp only [List.append_eq_nil] at h3
          exact h3.2
        rw [this]; decide
    rw [if_neg hb'] at ht
    have := conditional_loop_or env _ _ i hn ht hst _ _ _ _ hex
    exact ⟨this.1, fun hlt => this.2 (by omega)⟩
  · refine ⟨fun h => ?_, fun hlt => by omega⟩
    have := conditional_loop_range env _ _ _ _ _ _ _ h
    omega

theorem conditional_or_skips_one_witness :
    (separator_after "true || false".toList 0 = some ['|', '|'] ∧
      executed (execute_conditional (env_ok (fun _ => 0)) "true || false".toList) 0 ∧
      ¬ executed (execute_conditional (env_ok (fun _ => 0)) "true || false".toList) 1) ∧
    (separator_after "true || false && date".toList 0 = some ['|', '|'] ∧
      2 < (conditional_commands "true || false && date".toList).length ∧
      executed (execute_conditional (env_ok (fun _ => 0)) "true || false && date".toList) 2) :=
  ⟨⟨by decide, ⟨100, Child.captured "true".toList, by decide⟩,
    (conditional_or_skips_one (env_ok (fun _ => 0)) "true || false".toList 0 (by decide)
      ⟨100, Child.captured "true".toList, by decide⟩ (by decide)).1⟩,
   ⟨by decide, by decide,
    (conditional_or_skips_one (env_ok (fun _ => 0)) "true || false && date".toList 0 (by decide)
      ⟨100, Child.captured "true".toList, by decide⟩ (by decide)).2 (by decide) rfl rfl⟩⟩

/-! ### Redirection -/

/-- C1: a non-empty line other than `help` and `dter` is handed to exactly one
function, the one of the first entry of the strategy table whose test the line
passes; in particular a line with `|` and `;` and neither `&&` nor `||` goes to
`execute_pipe`, not to `execute_sequential`. -/
theorem main_dispatch_first_match (cmd : List Char) (hne : cmd ≠ [])
    (hhelp : cmd ≠ ['h', 'e', 'l', 'p']) (hdter : cmd ≠ ['d', 't', 'e', 'r']) :
    (∀ c, FirstMatch (strategyTable cmd) c ↔ main_dispatch cmd = c) ∧
    ('|' ∈ cmd → ';' ∈ cmd → ¬ ['&', '&'] <:+: cmd → ¬ ['|', '|'] <:+: cmd →
      main_dispatch cmd = Call.execute_pipe cmd ∧
      main_dispatch cmd ≠ Call.execute_sequential cmd) := by
  refine ⟨main_dispatch_eq cmd hne hhelp hdter, ?_⟩
  intro hp _ ha ho
  have e : main_dispatch cmd = Call.execute_pipe cmd := by
    rw [← main_dispatch_eq cmd hne hhelp hdter]
    simp [strategyTable, FirstMatch, hp, ha, ho]
  rw [e]
  exact ⟨rfl, by simp⟩

theorem main_dispatch_first_match_witness :
    "ls | wc ; date".toList ≠ [] ∧ "ls | wc ; date".toList ≠ ['h', 'e', 'l', 'p'] ∧
    "ls | wc ; date".toList ≠ ['d', 't', 'e', 'r'] ∧
    '|' ∈ "ls | wc ; date".toList ∧ ';' ∈ "ls | wc ; date".toList ∧
    main_dispatch "ls | wc ; date".toList = Call.execute_pipe "ls | wc ; date".toList :=
  ⟨by decide, by decide, by decide, by decide, by decide,
   ((main_dispatch_first_match "ls | wc ; date".toList (by decide) (by decide) (by decide)).2
     (by decide) (by decide) (by decide) (by decide)).1⟩

/-! ### File concatenation -/

/-- The checking loop lets a list through only if every name contains `.txt`. -/
theorem check_files_ok (fs : Files) :
    ∀ (files : List (List Char)) (i : Nat) (names : List (List Char)),
      check_files fs files i = Except.ok names →
      ∀ f ∈ files, ['.', 't', 'x', 't'] <:+: trim_whitespace f := by
  intro files
  induction files with
  | nil => intro i names _ f hf; simp at hf
  | cons g rest ih =>
    intro i names h f hf
    simp only [check_files] at h
    split at h
    · cases h
    · next h1 =>
      split at h
      · cases h
      · split at h
        · cases h
        · split at h
          · next ns hrec =>
            rcases List.mem_cons.1 hf with rfl | hf'
            · exact (strstr_iff _ _).1 (by simpa using h1)
            · exact ih (i + 1) ns hrec f hf'
          · cases h

/-- The part of the rejection that the code does keep: when some name of the
list does not even contain `.txt`, `concatenate_files` gives one message and
writes no byte, whatever the names in front of it are. -/
theorem concatenate_files_rejects (fs : Files) (cmd : List Char)
    (hbad : ∃ f ∈ (fields '~' cmd).take 5, ¬ ['.', 't', 'x', 't'] <:+: trim_whitespace f) :
    ∃ e, concatenate_files fs cmd = [Output.event e] := by
  unfold concatenate_files
  simp only [collect_text_eq_take_fields]
  split
  · exact ⟨_, rfl⟩
  · cases hc : check_files fs ((fields '~' cmd).take 5) 0 with
    | error e => exact ⟨e, rfl⟩
    | ok names =>
      obtain ⟨f, hf, hno⟩ := hbad
      exact absurd (check_files_ok fs _ 0 names hc f hf) hno

/-- C11 (the code at the failing input): the line `a.txt~b.txt.bak` reaches
`concatenate_files` with two names, the second of which does not have the
`.txt` extension; every file being present, the code reports nothing and writes
the bytes of both files. -/
theorem concatenate_files_accepts_bak :
    main_dispatch "a.txt~b.txt.bak".toList = Call.concatenate_files "a.txt~b.txt.bak".toList ∧
    fields '~' "a.txt~b.txt.bak".toList = ["a.txt".toList, "b.txt.bak".toList] ∧
    ¬ has_txt_extension (trim_whitespace "b.txt.bak".toList) ∧
    concatenate_files files_all_present "a.txt~b.txt.bak".toList
      = [Output.putchar 'a', Output.putchar 'b'] := by
  refine ⟨by decide, by decide, ?_, by decide⟩
  unfold has_txt_extension
  decide

end Minibash
